import Mathlib

/-!
Shallow embedding of the SBAS time-series inversion core of
`insar/timeseries.py` from the repository scottstanie/sar-scripts.

Conventions of the embedding:

* machine floats are modelled as exact rationals; a possibly-NaN float value
  is `Option ℚ`, with `none` standing for NaN;
* a phase chunk of shape (nstack, nrow, ncol) is a function
  `Fin nstack → Fin nrow → Fin ncol → Option ℚ`;
* `np.linalg.pinv` is an external numpy routine, so `calc_soln` receives the
  pseudo-inverse computation as an explicit function parameter `pinv`; the
  theorems below quantify over it, which also makes observable whether a code
  path depends on the linear solve at all;
* the C-order `reshape` between shapes (nrow, ncol) and (nrow * ncol,) is the
  equivalence `finProdFinEquiv`, which sends (r, c) to c + ncol * r;
* the HDF5 output dataset written by `write_out_chunk` is modelled as a total
  map `ℕ → ℕ → ℕ → ℚ` indexed by (date, row, col), and the slice assignment
  is a fold of single-element updates over the written index region.
-/

/-- Modelled from the spec: the source imports `constants.PHASE_TO_CM`, the
fixed phase-to-length scale factor ("multiply by the phase-to-length scale
constant", spec section 4.3); the `constants` module is not under `src/`.
No claim depends on its numeric value, so it is fixed here as a rational
approximation of the Sentinel-1 factor wavelength / (4 pi) in centimeters. -/
def PHASE_TO_CM : ℚ := 4414 / 10000

/-- Modelled from the spec: `build_A_matrix` is imported from `ts_numba` or
`ts_utils`, neither of which is under `src/`.  Spec section 4.1: the matrix
has shape (M, N - 1); column j corresponds to date j + 1 (the baseline date 0
has no column); the row of the interferogram (early, late) carries +1 at the
column of the late date and -1 at the column of the early date, so that
(A v) i = v[late_index - 1] - v[early_index - 1] with v[0] = 0 implicit.
Dates are the `date2num` values of the acquisition list, modelled as `ℤ`;
an interferogram is the pair of its two date values. -/
def build_A_matrix {nsar m : ℕ} (slclist : Fin nsar → ℤ) (ifglist : Fin m → ℤ × ℤ) :
    Matrix (Fin m) (Fin (nsar - 1)) ℚ :=
  Matrix.of fun i j =>
    (if slclist ⟨j.1 + 1, by have := j.2; omega⟩ = (ifglist i).2 then 1 else 0) -
      (if slclist ⟨j.1 + 1, by have := j.2; omega⟩ = (ifglist i).1 then 1 else 0)

/-- NaN replacement on one entry: `np.where(np.isnan(x), 0, x)`. -/
def nanToZero (x : Option ℚ) : ℚ := x.getD 0

/-- Flattening of the spatial dimensions in C order:
`unw_cols = unw_clean.reshape((nstack, -1))` in `calc_soln`. -/
def unwCols {m nrow ncol : ℕ} (unw_chunk : Fin m → Fin nrow → Fin ncol → Option ℚ)
    (i : Fin m) (p : Fin (nrow * ncol)) : Option ℚ :=
  unw_chunk i (finProdFinEquiv.symm p).1 (finProdFinEquiv.symm p).2

/-- Flattened columns after NaN replacement:
`unw_cols_nonan = np.where(nan_idxs, 0, unw_cols)` in `calc_soln`. -/
def unwColsNonan {m nrow ncol : ℕ} (unw_chunk : Fin m → Fin nrow → Fin ncol → Option ℚ)
    (i : Fin m) (p : Fin (nrow * ncol)) : ℚ :=
  nanToZero (unwCols unw_chunk i p)

/-- Embedding of `calc_soln` (timeseries.py, lines 293-338): flatten the
chunk to columns, zero the NaN entries, return an all-zero cube when the
zeroed data sums to zero, and otherwise left-multiply by the pseudo-inverse
of the incidence matrix, reshape back, prepend a zero slice for the first
date, and scale by `PHASE_TO_CM`.  The parameter `pinv` stands for the
external routine `np.linalg.pinv`. -/
def calc_soln {m nrow ncol nsar : ℕ}
    (pinv : Matrix (Fin m) (Fin (nsar - 1)) ℚ → Matrix (Fin (nsar - 1)) (Fin m) ℚ)
    (slclist : Fin nsar → ℤ) (ifglist : Fin m → ℤ × ℤ)
    (unw_chunk : Fin m → Fin nrow → Fin ncol → Option ℚ) :
    Fin nsar → Fin nrow → Fin ncol → ℚ :=
  if (∑ i, ∑ p, unwColsNonan unw_chunk i p) = 0 then fun _ _ _ => 0
  else
    fun d r c =>
      (if h : d.1 = 0 then 0
       else
        (pinv (build_A_matrix slclist ifglist) * Matrix.of (unwColsNonan unw_chunk))
          ⟨d.1 - 1, by have := d.2; omega⟩ (finProdFinEquiv (r, c))) * PHASE_TO_CM

/-- Statement of the pipeline in the words of the spec and of claim C1, one
output entry at a time: entry (d, r, c) of the result is the (d - 1, r, c)
entry of the pseudo-inverse applied to the NaN-zeroed pixel columns when
d > 0, zero when d = 0, scaled by `PHASE_TO_CM`.  This is the reference
formulation that `calc_soln` is compared against. -/
def inversion_pipeline {m nrow ncol nsar : ℕ}
    (pinv : Matrix (Fin m) (Fin (nsar - 1)) ℚ → Matrix (Fin (nsar - 1)) (Fin m) ℚ)
    (slclist : Fin nsar → ℤ) (ifglist : Fin m → ℤ × ℤ)
    (unw_chunk : Fin m → Fin nrow → Fin ncol → Option ℚ) :
    Fin nsar → Fin nrow → Fin ncol → ℚ :=
  fun d r c =>
    (if h : d.1 = 0 then 0
     else
      ∑ i, pinv (build_A_matrix slclist ifglist) ⟨d.1 - 1, by have := d.2; omega⟩ i *
        nanToZero (unw_chunk i r c)) * PHASE_TO_CM

/-- Dot product of a row of real weights with a column of possibly-NaN
values, with IEEE NaN propagation: the result is NaN as soon as any entry of
the column is NaN, and the exact dot product otherwise. -/
def dotOpt {m : ℕ} (w : Fin m → ℚ) (x : Fin m → Option ℚ) : Option ℚ :=
  if ∀ i, (x i).isSome then some (∑ i, w i * (x i).getD 0) else none

/-- Embedding of `calc_soln_pixelwise` (timeseries.py, lines 342-370): the
output cube starts as zeros, and for each pixel the rows 1.. of its date
column receive `pA @ unw_clean[:, i, j]` computed on the raw (not NaN-zeroed)
data; finally the cube is scaled by `PHASE_TO_CM`.  There is no fast path and
no NaN substitution. -/
def calc_soln_pixelwise {m nrow ncol nsar : ℕ}
    (pinv : Matrix (Fin m) (Fin (nsar - 1)) ℚ → Matrix (Fin (nsar - 1)) (Fin m) ℚ)
    (slclist : Fin nsar → ℤ) (ifglist : Fin m → ℤ × ℤ)
    (unw_chunk : Fin m → Fin nrow → Fin ncol → Option ℚ) :
    Fin nsar → Fin nrow → Fin ncol → Option ℚ :=
  fun d r c =>
    (if h : d.1 = 0 then some 0
     else
      dotOpt (fun i => pinv (build_A_matrix slclist ifglist) ⟨d.1 - 1, by have := d.2; omega⟩ i)
        (fun i => unw_chunk i r c)).map (fun q => q * PHASE_TO_CM)

/-- Byte size of a 3-dimensional block: `np.prod(shape) * nbytes` as an exact
rational, matching the float arithmetic of `_get_block_shape`. -/
def blockBytes (shape : ℕ × ℕ × ℕ) (nbytes : ℕ) : ℚ :=
  ((shape.1 * shape.2.1 * shape.2.2 * nbytes : ℕ) : ℚ)

/-- Loop body of `_get_block_shape` (timeseries.py, lines 373-392), with an
explicit fuel argument standing for the (finite) number of iterations the
Python `while` loop can make: while the budget allows more than one chunk,
first grow the row extent chunk by chunk until the full height is covered,
then grow the column extent, and stop when both are saturated.  The state
carries `row_chunks`, `col_chunks` and `cur_block_shape`. -/
def _get_block_shape_go (full chunk : ℕ × ℕ × ℕ) (bmax : ℚ) (nbytes : ℕ) :
    ℕ → ℕ → ℕ → ℕ × ℕ × ℕ → ℕ × ℕ × ℕ
  | 0, _, _, cur => cur
  | fuel + 1, rc, cc, cur =>
    if 1 < bmax / blockBytes cur nbytes then
      if rc * chunk.2.1 < full.2.1 then
        _get_block_shape_go full chunk bmax nbytes fuel (rc + 1) cc
          (cur.1, min ((rc + 1) * chunk.2.1) full.2.1, cur.2.2)
      else if cc * chunk.2.2 < full.2.2 then
        _get_block_shape_go full chunk bmax nbytes fuel rc (cc + 1)
          (cur.1, cur.2.1, min ((cc + 1) * chunk.2.2) full.2.2)
      else cur
    else cur

/-- Embedding of `_get_block_shape` (timeseries.py, lines 373-392): starting
from one storage chunk, grow the block shape inside the byte budget
`bmax = block_size_max`.  The fuel `full.2.1 + full.2.2 + 2` strictly exceeds
the number of growth steps the loop can make, since every step strictly
increases either `row_chunks * chunk.2.1` (bounded by `full.2.1`) or
`col_chunks * chunk.2.2` (bounded by `full.2.2`). -/
def _get_block_shape (full chunk : ℕ × ℕ × ℕ) (bmax : ℚ) (nbytes : ℕ) : ℕ × ℕ × ℕ :=
  _get_block_shape_go full chunk bmax nbytes (full.2.1 + full.2.2 + 2) 1 1 chunk

/-- Single-element update of the output dataset at index (date, row, col). -/
def update3 (st : ℕ → ℕ → ℕ → ℚ) (k : ℕ × ℕ × ℕ) (v : ℚ) : ℕ → ℕ → ℕ → ℚ :=
  fun d r c => if d = k.1 ∧ r = k.2.1 ∧ c = k.2.2 then v else st d r c

/-- Index region touched by the slice assignment
`hf[output_dset][:, rows[0]:rows[1], cols[0]:cols[1]] = chunk`: all dates,
rows in [r0, r1) and columns in [c0, c1). -/
def regionIdx (ndates r0 r1 c0 c1 : ℕ) : List (ℕ × ℕ × ℕ) :=
  (List.range ndates).flatMap fun d =>
    (List.range (r1 - r0)).flatMap fun i =>
      (List.range (c1 - c0)).map fun j => (d, r0 + i, c0 + j)

/-- Embedding of `write_out_chunk` (timeseries.py, lines 284-289): the slice
assignment overwrites every element of the region with the matching element
of the block sub-cube (the sub-cube is indexed relative to the region
corner), one element at a time. -/
def write_out_chunk (st chunk : ℕ → ℕ → ℕ → ℚ) (ndates r0 r1 c0 c1 : ℕ) :
    ℕ → ℕ → ℕ → ℚ :=
  (regionIdx ndates r0 r1 c0 c1).foldl
    (fun s k => update3 s k (chunk k.1 (k.2.1 - r0) (k.2.2 - c0))) st

/-- Disjointness of two blocks b = ((r0, r1), (c0, c1)): their row intervals
or their column intervals do not overlap.  The blocks produced by
`utils.block_iterator` with zero overlap are pairwise disjoint in this
sense (spec section 4.2). -/
abbrev blocksDisjoint (b1 b2 : (ℕ × ℕ) × (ℕ × ℕ)) : Prop :=
  b1.1.2 ≤ b2.1.1 ∨ b2.1.2 ≤ b1.1.1 ∨ b1.2.2 ≤ b2.2.1 ∨ b2.2.2 ≤ b1.2.1

/-- Model of the fan-out/fan-in of `run_sbas` (timeseries.py, lines 200-262):
each block is solved by the pure per-block computation `solve` (in the source,
`_load_and_run`, which reads the block of the input stack and applies
`calc_soln`), and the results are written by `write_out_chunk` in the order
the futures complete.  The completion order of the process pool is modelled
as the order of the `blocks` list. -/
def run_sbas_model (solve : (ℕ × ℕ) × (ℕ × ℕ) → ℕ → ℕ → ℕ → ℚ) (ndates : ℕ)
    (blocks : List ((ℕ × ℕ) × (ℕ × ℕ))) (init : ℕ → ℕ → ℕ → ℚ) : ℕ → ℕ → ℕ → ℚ :=
  blocks.foldl (fun st b => write_out_chunk st (solve b) ndates b.1.1 b.1.2 b.2.1 b.2.2) init

/-- Concrete stand-in for `np.linalg.pinv` used by the closed witnesses; the
theorems hold for every choice of the pseudo-inverse routine. -/
def pinvW : Matrix (Fin 1) (Fin 1) ℚ → Matrix (Fin 1) (Fin 1) ℚ :=
  fun _ => Matrix.of fun _ _ => 2

/-- Two-date acquisition list for the witnesses. -/
def slcW : Fin 2 → ℤ := ![0, 12]

/-- One interferogram joining the two dates of `slcW`. -/
def ifgW : Fin 1 → ℤ × ℤ := fun _ => (0, 12)

/-- One-pixel chunk with a single valid phase value. -/
def chunkW : Fin 1 → Fin 1 → Fin 1 → Option ℚ := fun _ _ _ => some 3

/-- One-pixel chunk that is entirely NaN. -/
def chunkNanW : Fin 1 → Fin 1 → Fin 1 → Option ℚ := fun _ _ _ => none

/-- Two-pixel chunk of finite, nonzero phase values that cancel exactly. -/
def chunkZeroSumW : Fin 1 → Fin 1 → Fin 2 → Option ℚ :=
  fun _ _ c => if c.1 = 0 then some 1 else some (-1)

/-- Three-date acquisition list for the incidence-matrix witness. -/
def slc3W : Fin 3 → ℤ := ![0, 10, 20]

/-- One interferogram joining the first and third dates of `slc3W`. -/
def ifg3W : Fin 1 → ℤ × ℤ := fun _ => (0, 20)

/-- Concrete unknown vector for the incidence-matrix witness. -/
def vW : Fin 2 → ℚ := ![5, 7]

/-- All-zero initial output dataset for the writer witnesses. -/
def stW : ℕ → ℕ → ℕ → ℚ := fun _ _ _ => 0

/-- Constant block sub-cube for the writer witness. -/
def chW : ℕ → ℕ → ℕ → ℚ := fun _ _ _ => 7

/-- Per-block solver for the scheduler witness. -/
def solveW : (ℕ × ℕ) × (ℕ × ℕ) → ℕ → ℕ → ℕ → ℚ := fun b _ _ _ => (b.1.1 : ℚ) + 1

/-- Two disjoint blocks, listed in one completion order. -/
def blocksW1 : List ((ℕ × ℕ) × (ℕ × ℕ)) := [((0, 1), (0, 1)), ((1, 2), (0, 1))]

/-- The same two blocks in the other completion order. -/
def blocksW2 : List ((ℕ × ℕ) × (ℕ × ℕ)) := [((1, 2), (0, 1)), ((0, 1), (0, 1))]

lemma sum_unwColsNonan {m nrow ncol : ℕ} (unw_chunk : Fin m → Fin nrow → Fin ncol → Option ℚ) :
    (∑ i, ∑ p, unwColsNonan unw_chunk i p) = ∑ i, ∑ r, ∑ c, nanToZero (unw_chunk i r c) := by
  refine Finset.sum_congr rfl fun i _ => ?_
  rw [← Equiv.sum_comp finProdFinEquiv (fun p => unwColsNonan unw_chunk i p), Fintype.sum_prod_type]
  refine Finset.sum_congr rfl fun r _ => Finset.sum_congr rfl fun c _ => ?_
  simp [unwColsNonan, unwCols]

lemma calc_soln_apply_solve {m nrow ncol nsar : ℕ}
    (pinv : Matrix (Fin m) (Fin (nsar - 1)) ℚ → Matrix (Fin (nsar - 1)) (Fin m) ℚ)
    (slclist : Fin nsar → ℤ) (ifglist : Fin m → ℤ × ℤ)
    (unw_chunk : Fin m → Fin nrow → Fin ncol → Option ℚ)
    (hsum : (∑ i, ∑ r, ∑ c, nanToZero (unw_chunk i r c)) ≠ 0)
    (d : Fin nsar) (r : Fin nrow) (c : Fin ncol) :
    calc_soln pinv slclist ifglist unw_chunk d r c =
      inversion_pipeline pinv slclist ifglist unw_chunk d r c := by
  have hz : ¬ (∑ i, ∑ p, unwColsNonan unw_chunk i p) = 0 := by
    rw [sum_unwColsNonan]; exact hsum
  simp only [calc_soln, inversion_pipeline, if_neg hz]
  by_cases h : d.1 = 0
  · simp [h]
  · rw [dif_neg h, dif_neg h]
    congr 1
    rw [Matrix.mul_apply]
    refine Finset.sum_congr rfl fun i _ => ?_
    congr 1
    simp [unwColsNonan, unwCols]

/-- Claim C1: for every input phase chunk whose NaN-zeroed entries do not sum
to zero, `calc_soln` returns exactly the cube obtained by flattening the
chunk to pixel columns, replacing NaN with 0, left-multiplying by the
pseudo-inverse of the incidence matrix built from the date and interferogram
lists, reshaping back, prepending an all-zero first date slice, and scaling
every entry by `PHASE_TO_CM`.  The pipeline is `inversion_pipeline`, stated
entrywise; the equality holds for every pseudo-inverse routine `pinv`. -/
theorem calc_soln_eq_pipeline {m nrow ncol nsar : ℕ}
    (pinv : Matrix (Fin m) (Fin (nsar - 1)) ℚ → Matrix (Fin (nsar - 1)) (Fin m) ℚ)
    (slclist : Fin nsar → ℤ) (ifglist : Fin m → ℤ × ℤ)
    (unw_chunk : Fin m → Fin nrow → Fin ncol → Option ℚ)
    (hsum : (∑ i, ∑ r, ∑ c, nanToZero (unw_chunk i r c)) ≠ 0) :
    calc_soln pinv slclist ifglist unw_chunk = inversion_pipeline pinv slclist ifglist unw_chunk :=
  funext fun d => funext fun r => funext fun c =>
    calc_soln_apply_solve pinv slclist ifglist unw_chunk hsum d r c

/-- Witness for claim C1 at a concrete one-pixel chunk. -/
theorem calc_soln_eq_pipeline_witness :
    (∑ i, ∑ r, ∑ c, nanToZero (chunkW i r c)) ≠ 0 ∧
      calc_soln pinvW slcW ifgW chunkW = inversion_pipeline pinvW slcW ifgW chunkW :=
  ⟨by simp [chunkW, nanToZero],
   calc_soln_eq_pipeline pinvW slcW ifgW chunkW (by simp [chunkW, nanToZero])⟩

/-- Claim C2: for every input chunk, on both the fast path and the
pseudo-inverse path, the first date slice of the cube returned by
`calc_soln` is exactly zero at every pixel. -/
theorem calc_soln_first_date_zero {m nrow ncol nsar : ℕ}
    (pinv : Matrix (Fin m) (Fin (nsar - 1)) ℚ → Matrix (Fin (nsar - 1)) (Fin m) ℚ)
    (slclist : Fin nsar → ℤ) (ifglist : Fin m → ℤ × ℤ)
    (unw_chunk : Fin m → Fin nrow → Fin ncol → Option ℚ)
    (d : Fin nsar) (hd : d.1 = 0) (r : Fin nrow) (c : Fin ncol) :
    calc_soln pinv slclist ifglist unw_chunk d r c = 0 := by
  simp only [calc_soln]
  split
  · rfl
  · simp [hd]

/-- Witness for claim C2 at a concrete chunk taking the solve path. -/
theorem calc_soln_first_date_zero_witness :
    ((0 : Fin 2).1 = 0) ∧ calc_soln pinvW slcW ifgW chunkW 0 0 0 = 0 :=
  ⟨rfl, calc_soln_first_date_zero pinvW slcW ifgW chunkW 0 rfl 0 0⟩

/-- Claim C3: a chunk whose entries are all NaN sums to zero after the
NaN-to-zero substitution, so the fast path fires and `calc_soln` returns the
all-zero cube of shape (N, nrow, ncol).  The result is the same for every
pseudo-inverse routine `pinv`, which is how the embedding expresses that the
early return does not depend on `build_A_matrix` or `np.linalg.pinv`. -/
theorem calc_soln_allnan_fastpath {m nrow ncol nsar : ℕ}
    (slclist : Fin nsar → ℤ) (ifglist : Fin m → ℤ × ℤ)
    (unw_chunk : Fin m → Fin nrow → Fin ncol → Option ℚ)
    (hnan : ∀ i r c, unw_chunk i r c = none) :
    (∑ i, ∑ p, unwColsNonan unw_chunk i p) = 0 ∧
      ∀ pinv : Matrix (Fin m) (Fin (nsar - 1)) ℚ → Matrix (Fin (nsar - 1)) (Fin m) ℚ,
        calc_soln pinv slclist ifglist unw_chunk = fun _ _ _ => 0 := by
  have hz : (∑ i, ∑ p, unwColsNonan unw_chunk i p) = 0 := by
    rw [sum_unwColsNonan]
    refine Finset.sum_eq_zero fun i _ => Finset.sum_eq_zero fun r _ =>
      Finset.sum_eq_zero fun c _ => ?_
    rw [hnan i r c]
    rfl
  exact ⟨hz, fun pinv => by simp only [calc_soln, if_pos hz]⟩

/-- Witness for claim C3 at a concrete all-NaN chunk. -/
theorem calc_soln_allnan_fastpath_witness :
    (∀ i r c, chunkNanW i r c = none) ∧
      ((∑ i, ∑ p, unwColsNonan chunkNanW i p) = 0 ∧
        ∀ pinv : Matrix (Fin 1) (Fin 1) ℚ → Matrix (Fin 1) (Fin 1) ℚ,
          calc_soln pinv slcW ifgW chunkNanW = fun _ _ _ => 0) :=
  ⟨fun _ _ _ => rfl, calc_soln_allnan_fastpath slcW ifgW chunkNanW fun _ _ _ => rfl⟩

/-- Extension of an unknown vector of length N - 1 to all N dates: the
baseline date 0 has implicit value 0, and date k > 0 has value v (k - 1). -/
def vext {nsar : ℕ} (v : Fin (nsar - 1) → ℚ) (k : Fin nsar) : ℚ :=
  if h : k.1 = 0 then 0 else v ⟨k.1 - 1, by have := k.2; omega⟩

lemma sum_if_eq_vext {nsar : ℕ} (v : Fin (nsar - 1) → ℚ) (l : Fin nsar) :
    (∑ j : Fin (nsar - 1), if (j.1 + 1 : ℕ) = l.1 then v j else 0) = vext v l := by
  unfold vext
  by_cases hl : l.1 = 0
  · rw [dif_pos hl]
    exact Finset.sum_eq_zero fun j _ => if_neg (by omega)
  · rw [dif_neg hl]
    have hlt : l.1 - 1 < nsar - 1 := by have := l.2; omega
    rw [Finset.sum_eq_single ⟨l.1 - 1, hlt⟩]
    · exact if_pos (by simp; omega)
    · intro j _ hj
      refine if_neg fun hc => hj (Fin.ext ?_)
      simp only [Fin.val_mk]
      omega
    · intro h
      exact absurd (Finset.mem_univ _) h

/-- Claim C4: for a list of unique ordered dates and an interferogram list
referencing only those dates, the matrix built by `build_A_matrix` has shape
(M, N - 1) by construction, and for every unknown vector v of length N - 1
(with implicit value 0 at the baseline date, expressed by `vext`), row i of
A v equals v[late_index - 1] - v[early_index - 1] for the date pair
(early, late) of interferogram i. -/
theorem build_A_matrix_mulVec {nsar m : ℕ}
    (slclist : Fin nsar → ℤ) (ifglist : Fin m → ℤ × ℤ)
    (hinj : Function.Injective slclist) (i : Fin m) (e l : Fin nsar)
    (hif : ifglist i = (slclist e, slclist l)) (v : Fin (nsar - 1) → ℚ) :
    (build_A_matrix slclist ifglist).mulVec v i = vext v l - vext v e := by
  have expand : ∀ j : Fin (nsar - 1),
      build_A_matrix slclist ifglist i j * v j =
        (if (j.1 + 1 : ℕ) = l.1 then v j else 0) -
          (if (j.1 + 1 : ℕ) = e.1 then v j else 0) := by
    intro j
    show ((if slclist ⟨j.1 + 1, _⟩ = (ifglist i).2 then (1 : ℚ) else 0) -
        (if slclist ⟨j.1 + 1, _⟩ = (ifglist i).1 then (1 : ℚ) else 0)) * v j = _
    rw [hif]
    simp only [hinj.eq_iff, Fin.ext_iff, Fin.val_mk]
    split_ifs <;> ring
  rw [Matrix.mulVec, Matrix.dotProduct]
  calc (∑ j, build_A_matrix slclist ifglist i j * v j)
      = ∑ j : Fin (nsar - 1), ((if (j.1 + 1 : ℕ) = l.1 then v j else 0) -
          (if (j.1 + 1 : ℕ) = e.1 then v j else 0)) :=
        Finset.sum_congr rfl fun j _ => expand j
    _ = vext v l - vext v e := by
        rw [Finset.sum_sub_distrib, sum_if_eq_vext, sum_if_eq_vext]

/-- Witness for claim C4 at three concrete dates and the interferogram that
spans them. -/
theorem build_A_matrix_mulVec_witness :
    Function.Injective slc3W ∧ ifg3W 0 = (slc3W 0, slc3W 2) ∧
      (build_A_matrix slc3W ifg3W).mulVec vW 0 = @vext 3 vW 2 - @vext 3 vW 0 :=
  ⟨by decide, rfl, build_A_matrix_mulVec slc3W ifg3W (by decide) 0 0 2 rfl vW⟩

lemma get_block_shape_go_step_row (full chunk : ℕ × ℕ × ℕ) (bmax : ℚ) (nbytes : ℕ)
    (fuel rc cc : ℕ) (cur : ℕ × ℕ × ℕ)
    (hbudget : 1 < bmax / blockBytes cur nbytes) (hrow : rc * chunk.2.1 < full.2.1) :
    _get_block_shape_go full chunk bmax nbytes (fuel + 1) rc cc cur =
      _get_block_shape_go full chunk bmax nbytes fuel (rc + 1) cc
        (cur.1, min ((rc + 1) * chunk.2.1) full.2.1, cur.2.2) := by
  rw [_get_block_shape_go, if_pos hbudget, if_pos hrow]

lemma get_block_shape_go_stop (full chunk : ℕ × ℕ × ℕ) (bmax : ℚ) (nbytes : ℕ)
    (fuel rc cc : ℕ) (cur : ℕ × ℕ × ℕ)
    (hbudget : ¬ 1 < bmax / blockBytes cur nbytes) :
    _get_block_shape_go full chunk bmax nbytes (fuel + 1) rc cc cur = cur := by
  rw [_get_block_shape_go, if_neg hbudget]

/-- Claim C5 fails on the code: the loop of `_get_block_shape` tests the
budget before growing and recomputes it only afterwards, so the final growth
step can overshoot.  At full shape (1, 100, 10), chunk (1, 10, 10), 4-byte
elements and a budget of 600 bytes (which is at least one 400-byte chunk),
the function returns the block (1, 20, 10) of 800 bytes, exceeding the
budget.  The docstring of `_get_block_shape` promises a size below
`block_size_max`, so the code contradicts its own documentation here. -/
theorem get_block_shape_exceeds_budget :
    blockBytes (1, 10, 10) 4 ≤ 600 ∧
      _get_block_shape (1, 100, 10) (1, 10, 10) 600 4 = (1, 20, 10) ∧
      600 < blockBytes (1, 20, 10) 4 := by
  refine ⟨by norm_num [blockBytes], ?_, by norm_num [blockBytes]⟩
  have h1 : _get_block_shape_go (1, 100, 10) (1, 10, 10) 600 4 (111 + 1) 1 1 (1, 10, 10) =
      _get_block_shape_go (1, 100, 10) (1, 10, 10) 600 4 111 2 1 (1, 20, 10) := by
    rw [get_block_shape_go_step_row (1, 100, 10) (1, 10, 10) 600 4 111 1 1 (1, 10, 10)
      (by norm_num [blockBytes]) (by norm_num)]
    rfl
  have h2 : _get_block_shape_go (1, 100, 10) (1, 10, 10) 600 4 (110 + 1) 2 1 (1, 20, 10) =
      (1, 20, 10) :=
    get_block_shape_go_stop (1, 100, 10) (1, 10, 10) 600 4 110 2 1 (1, 20, 10)
      (by norm_num [blockBytes])
  show _get_block_shape_go (1, 100, 10) (1, 10, 10) 600 4 (111 + 1) 1 1 (1, 10, 10) = (1, 20, 10)
  rw [h1]
  exact h2

/-- Amended claim C6: the source of `_get_block_shape` contains no `raise`
statement, so the embedding is a total function.  When the byte budget is
smaller than the byte size of a single storage chunk, the loop condition is
false at entry and the function silently returns the chunk shape itself
(whose byte size exceeds the budget) instead of failing with `ValueError`
as the spec claims. -/
theorem get_block_shape_small_budget_returns_chunk
    (full chunk : ℕ × ℕ × ℕ) (bmax : ℚ) (nbytes : ℕ)
    (hpos : 0 < blockBytes chunk nbytes) (hlt : bmax < blockBytes chunk nbytes) :
    _get_block_shape full chunk bmax nbytes = chunk := by
  have hfuel : full.2.1 + full.2.2 + 2 = (full.2.1 + full.2.2 + 1) + 1 := rfl
  rw [_get_block_shape, hfuel]
  exact get_block_shape_go_stop full chunk bmax nbytes (full.2.1 + full.2.2 + 1) 1 1 chunk
    (by rw [not_lt]; exact le_of_lt ((div_lt_one hpos).mpr hlt))

/-- Witness for the amended claim C6 at a concrete undersized budget. -/
theorem get_block_shape_small_budget_returns_chunk_witness :
    ((0 : ℚ) < blockBytes (2, 5, 5) 4 ∧ (150 : ℚ) < blockBytes (2, 5, 5) 4) ∧
      _get_block_shape (2, 50, 50) (2, 5, 5) 150 4 = (2, 5, 5) :=
  ⟨⟨by norm_num [blockBytes], by norm_num [blockBytes]⟩,
   get_block_shape_small_budget_returns_chunk (2, 50, 50) (2, 5, 5) 150 4
     (by norm_num [blockBytes]) (by norm_num [blockBytes])⟩

/-- Counterexample to claim C6 as stated: with a 100-byte budget and a
400-byte chunk the budget is smaller than one chunk, yet `_get_block_shape`
does not fail; it returns the chunk shape as a normal value (there is no
error path in the source at all). -/
theorem get_block_shape_no_error_on_small_budget :
    (100 : ℚ) < blockBytes (1, 10, 10) 4 ∧
      _get_block_shape (1, 100, 10) (1, 10, 10) 100 4 = (1, 10, 10) := by
  refine ⟨by norm_num [blockBytes], ?_⟩
  show _get_block_shape_go (1, 100, 10) (1, 10, 10) 100 4 (111 + 1) 1 1 (1, 10, 10) =
    (1, 10, 10)
  exact get_block_shape_go_stop (1, 100, 10) (1, 10, 10) 100 4 111 1 1 (1, 10, 10)
    (by norm_num [blockBytes])

lemma foldl_update3_apply (l : List (ℕ × ℕ × ℕ)) (v : ℕ × ℕ × ℕ → ℚ)
    (st : ℕ → ℕ → ℕ → ℚ) (d r c : ℕ) :
    (l.foldl (fun s k => update3 s k (v k)) st) d r c =
      if (d, r, c) ∈ l then v (d, r, c) else st d r c := by
  induction l generalizing st with
  | nil => simp
  | cons a l ih =>
    obtain ⟨a1, a2, a3⟩ := a
    rw [List.foldl_cons, ih]
    simp only [List.mem_cons, update3, Prod.mk.injEq]
    split_ifs <;> simp_all

lemma mem_regionIdx (ndates r0 r1 c0 c1 d r c : ℕ) :
    (d, r, c) ∈ regionIdx ndates r0 r1 c0 c1 ↔
      d < ndates ∧ r0 ≤ r ∧ r < r0 + (r1 - r0) ∧ c0 ≤ c ∧ c < c0 + (c1 - c0) := by
  simp only [regionIdx, List.mem_flatMap, List.mem_map, List.mem_range, Prod.mk.injEq]
  constructor
  · rintro ⟨d1, hd1, i, hi, j, hj, hdd, hrr, hcc⟩
    omega
  · rintro ⟨hd, hr0, hr1, hc0, hc1⟩
    exact ⟨d, hd, r - r0, by omega, c - c0, by omega, rfl, by omega, by omega⟩

lemma write_out_chunk_apply (st chunk : ℕ → ℕ → ℕ → ℚ) (ndates r0 r1 c0 c1 d r c : ℕ) :
    write_out_chunk st chunk ndates r0 r1 c0 c1 d r c =
      if d < ndates ∧ r0 ≤ r ∧ r < r0 + (r1 - r0) ∧ c0 ≤ c ∧ c < c0 + (c1 - c0)
      then chunk d (r - r0) (c - c0) else st d r c := by
  rw [write_out_chunk, foldl_update3_apply (regionIdx ndates r0 r1 c0 c1)
    (fun k => chunk k.1 (k.2.1 - r0) (k.2.2 - c0)) st d r c]
  by_cases hmem : (d, r, c) ∈ regionIdx ndates r0 r1 c0 c1
  · rw [if_pos hmem, if_pos ((mem_regionIdx ndates r0 r1 c0 c1 d r c).mp hmem)]
  · rw [if_neg hmem, if_neg (fun hb => hmem ((mem_regionIdx ndates r0 r1 c0 c1 d r c).mpr hb))]

/-- Claim C7: a call of `write_out_chunk` with row range [r0, r1) and column
range [c0, c1) overwrites exactly the dataset elements whose row and column
lie in that rectangle, across the full date dimension, with the matching
elements of the block sub-cube (indexed from the region corner); every
element outside the rectangle keeps its previous value. -/
theorem write_out_chunk_frame (st chunk : ℕ → ℕ → ℕ → ℚ) (ndates r0 r1 c0 c1 : ℕ)
    (hr : r0 ≤ r1) (hc : c0 ≤ c1) :
    (∀ d r c, d < ndates → r0 ≤ r → r < r1 → c0 ≤ c → c < c1 →
      write_out_chunk st chunk ndates r0 r1 c0 c1 d r c = chunk d (r - r0) (c - c0)) ∧
    (∀ d r c, ¬(r0 ≤ r ∧ r < r1 ∧ c0 ≤ c ∧ c < c1) →
      write_out_chunk st chunk ndates r0 r1 c0 c1 d r c = st d r c) := by
  constructor
  · intro d r c hd hr0 hr1v hc0 hc1v
    rw [write_out_chunk_apply, if_pos ⟨hd, hr0, by omega, hc0, by omega⟩]
  · intro d r c hout
    rw [write_out_chunk_apply, if_neg (by
      rintro ⟨-, hr0, hr1v, hc0, hc1v⟩
      exact hout ⟨hr0, by omega, hc0, by omega⟩)]

/-- Witness for claim C7 at a concrete one-date, one-pixel region. -/
theorem write_out_chunk_frame_witness :
    ((0 : ℕ) ≤ 1 ∧ (0 : ℕ) ≤ 1) ∧
      ((∀ d r c, d < 1 → 0 ≤ r → r < 1 → 0 ≤ c → c < 1 →
        write_out_chunk stW chW 1 0 1 0 1 d r c = chW d (r - 0) (c - 0)) ∧
       (∀ d r c, ¬(0 ≤ r ∧ r < 1 ∧ 0 ≤ c ∧ c < 1) →
        write_out_chunk stW chW 1 0 1 0 1 d r c = stW d r c)) :=
  ⟨⟨Nat.zero_le 1, Nat.zero_le 1⟩,
   write_out_chunk_frame stW chW 1 0 1 0 1 (Nat.zero_le 1) (Nat.zero_le 1)⟩

lemma write_write_comm (ndates : ℕ) (b1 b2 : (ℕ × ℕ) × (ℕ × ℕ))
    (ch1 ch2 : ℕ → ℕ → ℕ → ℚ) (hd : blocksDisjoint b1 b2) (st : ℕ → ℕ → ℕ → ℚ) :
    write_out_chunk (write_out_chunk st ch1 ndates b1.1.1 b1.1.2 b1.2.1 b1.2.2)
        ch2 ndates b2.1.1 b2.1.2 b2.2.1 b2.2.2 =
      write_out_chunk (write_out_chunk st ch2 ndates b2.1.1 b2.1.2 b2.2.1 b2.2.2)
        ch1 ndates b1.1.1 b1.1.2 b1.2.1 b1.2.2 := by
  funext d r c
  rw [write_out_chunk_apply, write_out_chunk_apply, write_out_chunk_apply,
    write_out_chunk_apply]
  by_cases h1 : d < ndates ∧ b1.1.1 ≤ r ∧ r < b1.1.1 + (b1.1.2 - b1.1.1) ∧
      b1.2.1 ≤ c ∧ c < b1.2.1 + (b1.2.2 - b1.2.1)
  · by_cases h2 : d < ndates ∧ b2.1.1 ≤ r ∧ r < b2.1.1 + (b2.1.2 - b2.1.1) ∧
        b2.2.1 ≤ c ∧ c < b2.2.1 + (b2.2.2 - b2.2.1)
    · exfalso
      rcases hd with h | h | h | h <;> omega
    · simp [h1, h2]
      intro ha hb hc hd4
      exfalso
      omega
  · by_cases h2 : d < ndates ∧ b2.1.1 ≤ r ∧ r < b2.1.1 + (b2.1.2 - b2.1.1) ∧
        b2.2.1 ≤ c ∧ c < b2.2.1 + (b2.2.2 - b2.2.1)
    · simp [h1, h2]
      split_ifs with h3
      · exfalso
        omega
      · rfl
    · simp [h1, h2]

/-- Claim C8: the blockwise inversion is deterministic.  The per-block solve
is a pure function of the filtered input stack, so with identical inputs and
a freshly created output dataset the only nondeterminism between two runs of
`run_sbas` is the completion order of the process pool.  For pairwise
disjoint blocks, `run_sbas_model` gives the same output dataset for every
completion order, hence a second run with `overwrite=True` writes the same
value to every element. -/
theorem run_sbas_order_independent (solve : (ℕ × ℕ) × (ℕ × ℕ) → ℕ → ℕ → ℕ → ℚ)
    (ndates : ℕ) (blocks1 blocks2 : List ((ℕ × ℕ) × (ℕ × ℕ))) (init : ℕ → ℕ → ℕ → ℚ)
    (hperm : blocks1.Perm blocks2)
    (hdisj : ∀ b1 ∈ blocks1, ∀ b2 ∈ blocks1, b1 = b2 ∨ blocksDisjoint b1 b2) :
    run_sbas_model solve ndates blocks1 init = run_sbas_model solve ndates blocks2 init := by
  unfold run_sbas_model
  refine hperm.foldl_eq' ?_ init
  intro x hx y hy z
  rcases hdisj x hx y hy with h | h
  · rw [h]
  · exact write_write_comm ndates x y (solve x) (solve y) h z

/-- Witness for claim C8 at two concrete disjoint blocks in both completion
orders. -/
theorem run_sbas_order_independent_witness :
    blocksW1.Perm blocksW2 ∧
      (∀ b1 ∈ blocksW1, ∀ b2 ∈ blocksW1, b1 = b2 ∨ blocksDisjoint b1 b2) ∧
      run_sbas_model solveW 1 blocksW1 stW = run_sbas_model solveW 1 blocksW2 stW :=
  ⟨List.Perm.swap ((1, 2), (0, 1)) ((0, 1), (0, 1)) [], by decide,
   run_sbas_order_independent solveW 1 blocksW1 blocksW2 stW
     (List.Perm.swap ((1, 2), (0, 1)) ((0, 1), (0, 1)) []) (by decide)⟩

/-- Claim C9: on a NaN-free chunk whose entries do not sum to zero, the
vectorized solver `calc_soln` and the per-pixel solver `calc_soln_pixelwise`
agree in exact arithmetic, for every pseudo-inverse routine: applying the
pseudo-inverse to all pixel columns at once agrees column by column with
applying it to each pixel, both put zero at the first date, and both scale
by `PHASE_TO_CM`. -/
theorem calc_soln_matches_pixelwise {m nrow ncol nsar : ℕ}
    (pinv : Matrix (Fin m) (Fin (nsar - 1)) ℚ → Matrix (Fin (nsar - 1)) (Fin m) ℚ)
    (slclist : Fin nsar → ℤ) (ifglist : Fin m → ℤ × ℤ)
    (unw_chunk : Fin m → Fin nrow → Fin ncol → Option ℚ)
    (hnonan : ∀ i r c, (unw_chunk i r c).isSome)
    (hsum : (∑ i, ∑ r, ∑ c, nanToZero (unw_chunk i r c)) ≠ 0) :
    ∀ d r c, calc_soln_pixelwise pinv slclist ifglist unw_chunk d r c =
      some (calc_soln pinv slclist ifglist unw_chunk d r c) := by
  intro d r c
  rw [calc_soln_apply_solve pinv slclist ifglist unw_chunk hsum d r c]
  simp only [calc_soln_pixelwise, inversion_pipeline, dotOpt]
  by_cases hd : d.1 = 0
  · simp [hd]
  · rw [dif_neg hd, dif_neg hd, if_pos fun i => hnonan i r c]
    simp only [Option.map_some']
    rfl

/-- Witness for claim C9 at a concrete NaN-free one-pixel chunk. -/
theorem calc_soln_matches_pixelwise_witness :
    (∀ i r c, (chunkW i r c).isSome) ∧ (∑ i, ∑ r, ∑ c, nanToZero (chunkW i r c)) ≠ 0 ∧
      ∀ d r c, calc_soln_pixelwise pinvW slcW ifgW chunkW d r c =
        some (calc_soln pinvW slcW ifgW chunkW d r c) :=
  ⟨fun _ _ _ => rfl, by simp [chunkW, nanToZero],
   calc_soln_matches_pixelwise pinvW slcW ifgW chunkW (fun _ _ _ => rfl)
     (by simp [chunkW, nanToZero])⟩

/-- Claim C10: there is a chunk of finite, nonzero, non-NaN phase values
whose entries sum to exactly zero, on which `calc_soln` returns the all-zero
cube for every pseudo-inverse routine: the fast path tests the sum of the
NaN-zeroed data rather than whether the data is all zero, so real data that
happens to cancel is silently skipped and its solution lost. -/
theorem calc_soln_cancelling_data_skipped :
    (∀ i r c, chunkZeroSumW i r c ≠ none ∧ nanToZero (chunkZeroSumW i r c) ≠ 0) ∧
      (∑ i, ∑ r, ∑ c, nanToZero (chunkZeroSumW i r c)) = 0 ∧
      ∀ pinv : Matrix (Fin 1) (Fin 1) ℚ → Matrix (Fin 1) (Fin 1) ℚ,
        calc_soln pinv slcW ifgW chunkZeroSumW = fun _ _ _ => 0 := by
  have hz : (∑ i, ∑ r, ∑ c, nanToZero (chunkZeroSumW i r c)) = 0 := by
    simp [chunkZeroSumW, nanToZero, Fin.sum_univ_two]
  refine ⟨?_, hz, fun pinv => ?_⟩
  · intro i r c
    refine ⟨?_, ?_⟩ <;> fin_cases c <;> simp [chunkZeroSumW, nanToZero]
  · have hz2 : (∑ i, ∑ p, unwColsNonan chunkZeroSumW i p) = 0 := by
      rw [sum_unwColsNonan]
      exact hz
    simp only [calc_soln, if_pos hz2]
